import Mathlib

/-!
Verification development for the drillmaster service scheduler
(`drillmaster/services.py`).  The definitions below are a shallow embedding
of the loading / validation pipeline (`ServiceCollection.load_definitions`,
`check_circular_dependencies`), the run coordinator
(`RunningContext`, `ServiceCollection.start_next` / `service_failed`) and the
driver glue (`start_all` / `start_services`).  Service definitions carry their
dependencies by name; dependency resolution in Python replaces names by object
references, which we model by looking names up in the registry, an
association list mirroring the insertion-ordered Python dict.
-/

namespace Drillmaster

/-- A declared service: `name`, `image` and the dependency names, as held by a
`Service` subclass before resolution. -/
structure ServiceDef where
  name : String
  image : String
  dependencies : List String
deriving Repr, DecidableEq

/-- The registry `all_by_name`: an insertion-ordered map from service name to
its dependency names (references are modelled by names). -/
abbrev Reg := List (String × List String)

/-- Errors raised by `load_definitions` and its helpers.  `keyError` models the
bare Python `KeyError` escaping from dependency resolution; `fuelExhausted` is
an artifact of the bounded embedding of the recursive cycle walk and is proved
unreachable below. -/
inductive LoadError where
  | noServices
  | excludedDependency (dep svc : String)
  | repeatedServiceName (names : List String)
  | circularDependency
  | keyError (name : String)
  | fuelExhausted
deriving Repr, DecidableEq

/-- Keys of an association list. -/
def keys {α : Type} (m : List (String × α)) : List String := m.map Prod.fst

/-- Python dict assignment `m[k] = v`: replace in place if the key exists
(keeping its position), otherwise append. -/
def updateAssoc {α : Type} : List (String × α) → String → α → List (String × α)
  | [], k, v => [(k, v)]
  | (k', v') :: rest, k, v =>
    if k' = k then (k, v) :: rest else (k', v') :: updateAssoc rest k v

/-- The `Counter` update `name_counter[k] += 1`. -/
def bump : List (String × Nat) → String → List (String × Nat)
  | [], k => [(k, 1)]
  | (k', n) :: rest, k =>
    if k' = k then (k', n + 1) :: rest else (k', n) :: bump rest k

/-- Count held in a counter for a name (0 when absent). -/
def countOf : List (String × Nat) → String → Nat
  | [], _ => 0
  | (k, m) :: rest, n => if n = k then m else countOf rest n

/-- The first loop of `load_definitions`: for each scanned service, if it is
not excluded it is written into `all_by_name` and its dependencies are checked
against the exclude list (raising `ExcludedDependency` on the first excluded
dependency); every scanned service, excluded or not, bumps `name_counter`. -/
def scanServices (exclude : List String) :
    List ServiceDef → Reg → List (String × Nat) →
      Except LoadError (Reg × List (String × Nat))
  | [], reg, counter => .ok (reg, counter)
  | s :: rest, reg, counter =>
    if s.name ∈ exclude then
      scanServices exclude rest reg (bump counter s.name)
    else
      let reg' := updateAssoc reg s.name s.dependencies
      match s.dependencies.filter (fun d => decide (d ∈ exclude)) with
      | [] => scanServices exclude rest reg' (bump counter s.name)
      | d :: _ => .error (.excludedDependency d s.name)

/-- `multiples`: the names counted more than once. -/
def multiples (counter : List (String × Nat)) : List String :=
  (counter.filter (fun p => decide (1 < p.2))).map Prod.fst

/-- Dependency resolution: `service.dependencies = [self.all_by_name[d] ...]`;
the first dependency name absent from the registry raises a bare `KeyError`. -/
def resolveDeps (reg : Reg) : List (String × List String) → Except LoadError Unit
  | [] => .ok ()
  | (_, deps) :: rest =>
    match deps.find? (fun d => !decide (d ∈ keys reg)) with
    | some d => .error (.keyError d)
    | none => resolveDeps reg rest

/-- Outcomes of the recursive cycle walk: `circular` models the
`ServiceLoadError("Circular dependency detected")` raise; `outOfFuel` marks
exhaustion of the embedding's structural fuel (proved unreachable at fuel
`|registry| + 1`). -/
inductive CircErr where
  | circular
  | outOfFuel
deriving Repr, DecidableEq

/-- Following a resolved dependency reference: the dependencies of a name. -/
def depsOf (reg : Reg) (n : String) : List String := (reg.lookup n).getD []

/-- The `for dependency in checked.dependencies` loop inside
`go_up_dependencies`: raise if the dependency's name equals the walk's origin,
return (abandoning the rest of the list) once the shared counter `count`
equals the total number of definitions `tot`, otherwise recurse via `visit`
and continue the loop with the updated counter. -/
def goUpList (tot : Nat) (start : String)
    (visit : Nat → String → Except CircErr Nat) :
    Nat → List String → Except CircErr Nat
  | count, [] => .ok count
  | count, d :: rest =>
    if d = start then .error .circular
    else if count = tot then .ok count
    else
      match visit count d with
      | .error e => .error e
      | .ok count' => goUpList tot start visit count' rest

/-- `go_up_dependencies(checked)`: increment the shared counter and run the
dependency loop.  Recursion is bounded by structural `fuel`; the theorems
below show that with `fuel = tot + 1` the fuel never runs out, so the
embedding computes exactly the Python recursion. -/
def goUpNode (reg : Reg) (tot : Nat) (start : String) :
    Nat → Nat → String → Except CircErr Nat
  | 0, _, _ => .error .outOfFuel
  | fuel + 1, count, node =>
    goUpList tot start (goUpNode reg tot start fuel) (count + 1) (depsOf reg node)

/-- The outer loop of `check_circular_dependencies`: one fresh walk
(`count = 0`) per service that has dependencies. -/
def goOrigins (reg : Reg) : List (String × List String) → Except CircErr Unit
  | [] => .ok ()
  | (n, _) :: rest =>
    match goUpNode reg reg.length n (reg.length + 1) 0 n with
    | .error e => .error e
    | .ok _ => goOrigins reg rest

/-- `ServiceCollection.check_circular_dependencies`. -/
def check_circular_dependencies (reg : Reg) : Except CircErr Unit :=
  goOrigins reg (reg.filter (fun p => !p.2.isEmpty))

/-- `ServiceCollection.load_definitions`: the empty-set check, the scan loop,
the repeated-name check, dependency resolution, and the cycle check, in the
order the Python method performs them. -/
def load_definitions (services : List ServiceDef) (exclude : List String) :
    Except LoadError Reg :=
  if services.length = 0 then .error .noServices
  else
    match scanServices exclude services [] [] with
    | .error e => .error e
    | .ok (reg, counter) =>
      match multiples counter with
      | [] =>
        match resolveDeps reg reg with
        | .error e => .error e
        | .ok () =>
          match check_circular_dependencies reg with
          | .ok () => .ok reg
          | .error .circular => .error .circularDependency
          | .error .outOfFuel => .error .fuelExhausted
      | _ :: _ => .error (.repeatedServiceName (multiples counter))

/-- Bounded reachability along dependency edges: every node reachable from `n`
in between 1 and `fuel` steps. -/
def reachable (reg : Reg) : Nat → String → List String
  | 0, _ => []
  | fuel + 1, n => depsOf reg n ++ (depsOf reg n).flatMap (reachable reg fuel)

/-- The dependency graph has a cycle: some registered name reaches itself. -/
def hasCycle (reg : Reg) : Bool :=
  reg.any (fun p => (reachable reg reg.length p.1).contains p.1)

/-- Modelled from the spec: `ServiceAgent` lives in
`drillmaster/service_agent.py`, which is absent from this snapshot (only its
tests and its callers in `services.py` are present).  Per the spec, an agent
tracks which of its service's dependencies have not yet completed:
`can_start` is true iff all dependencies are done, and
`process_service_started` marks one dependency as satisfied. -/
structure Agent where
  name : String
  remainingDeps : List String
deriving Repr, DecidableEq

/-- Modelled from the spec: `canStart: true iff all dependencies are in Done`. -/
def Agent.can_start (a : Agent) : Bool := a.remainingDeps.isEmpty

/-- Modelled from the spec: notification that `started` has completed; the
agent marks that dependency as satisfied. -/
def Agent.process_service_started (a : Agent) (started : String) : Agent :=
  { a with remainingDeps := a.remainingDeps.filter (fun d => d ≠ started) }

/-- `RunningContext`: the per-run coordinator state, holding the active agent
map `service_agents` and the `waiting_agents` sub-map of agents that cannot
start yet. -/
structure RunningContext where
  service_agents : List (String × Agent)
  waiting_agents : List (String × Agent)
deriving Repr, DecidableEq

/-- `RunningContext.__init__`: one agent per service; the waiting map holds
exactly the agents that cannot start. -/
def RunningContext.init (services_by_name : List (String × List String)) :
    RunningContext :=
  let agents := services_by_name.map (fun p => (p.1, Agent.mk p.1 p.2))
  { service_agents := agents
    waiting_agents := agents.filter (fun p => !p.2.can_start) }

/-- `without_dependencies`: the agents that can start right away. -/
def RunningContext.without_dependencies
    (services_by_name : List (String × List String)) : List Agent :=
  ((services_by_name.map (fun p => (p.1, Agent.mk p.1 p.2))).filter
      (fun p => p.2.can_start)).map Prod.snd

/-- `RunningContext.done`: `not bool(self.waiting_agents)`. -/
def RunningContext.done (ctx : RunningContext) : Bool :=
  ctx.waiting_agents.isEmpty

/-- `RunningContext.service_started`: pop the started name from the active
map, notify every waiting agent, and pop and return the agents that can now
start.  The Python loop over the (unique-keyed) dict plus the batched pops is
the partition of the notified waiting map by `can_start`. -/
def RunningContext.service_started (ctx : RunningContext) (started : String) :
    RunningContext × List Agent :=
  let notified := ctx.waiting_agents.map
    (fun p => (p.1, p.2.process_service_started started))
  ({ service_agents := ctx.service_agents.filter (fun p => p.1 ≠ started)
     waiting_agents := notified.filter (fun p => !p.2.can_start) },
   (notified.filter (fun p => p.2.can_start)).map Prod.snd)

/-- The mutable collection-level run state: the running context plus the
`failed` flag set by `service_failed`. -/
structure CoordState where
  ctx : RunningContext
  failed : Bool
deriving Repr, DecidableEq

/-- One coordinator step, labelled with the names of the agents it launches:
`start_next` runs `service_started` under the pop lock and starts every
returned agent; `service_failed` merely sets the failed flag (it touches no
agent). -/
inductive StepOut : CoordState → List String → CoordState → Prop
  | start_next (s : CoordState) (name : String) :
      StepOut s (((s.ctx.service_started name).2).map Agent.name)
        { ctx := (s.ctx.service_started name).1, failed := s.failed }
  | service_failed (s : CoordState) (name : String) :
      StepOut s [] { s with failed := true }

/-- A coordinator step with any output. -/
def StepAny (s t : CoordState) : Prop := ∃ out, StepOut s out t

/-- The agent names currently in the waiting map. -/
def wnames (s : CoordState) : List String :=
  s.ctx.waiting_agents.map (fun p => p.2.name)

/-- Python runtime errors that are not `ServiceLoadError`s. -/
inductive PyError where
  | typeError
deriving Repr, DecidableEq

/-- `ServiceCollection.start_all` launches the dependency-free agents, polls
until `done or failed`, logs on failure, and ends without a `return`
statement: whatever the final value of the failed flag, the caller receives
`None`. -/
def start_all_return (_failed : Bool) : Option (List String) := none

/-- What `start_all` logs at exit, as a function of the failed flag. -/
def start_all_log (failed : Bool) : List String :=
  if failed then ["Failed to start all services"] else []

/-- The driver's final step, `",".join(service_names)`: joining `None` raises
`TypeError`, joining a list yields the comma-separated names. -/
def joinNames : Option (List String) → Except PyError String
  | none => .error .typeError
  | some names => .ok (String.intercalate "," names)

/-- The tail of `start_services`: it joins whatever `start_all` returned. -/
def start_services_log (failed : Bool) : Except PyError String :=
  joinNames (start_all_return failed)

/-! Concrete service sets used in the theorems below. -/

/-- A cyclic service set: the two-cycle `a ↔ b` padded with the shared diamond
`d → {e, f} → g`, which both `a`'s and `b`'s walks traverse first. -/
def paddedCycleServices : List ServiceDef :=
  [⟨"a", "img", ["d", "b"]⟩, ⟨"b", "img", ["d", "a"]⟩, ⟨"d", "img", ["e", "f"]⟩,
   ⟨"e", "img", ["g"]⟩, ⟨"f", "img", ["g"]⟩, ⟨"g", "img", []⟩]

/-- The registry `load_definitions` builds for `paddedCycleServices`. -/
def paddedCycleReg : Reg :=
  [("a", ["d", "b"]), ("b", ["d", "a"]), ("d", ["e", "f"]),
   ("e", ["g"]), ("f", ["g"]), ("g", [])]

/-- The plain two-cycle `a → b → a`. -/
def twoCycleServices : List ServiceDef :=
  [⟨"a", "img", ["b"]⟩, ⟨"b", "img", ["a"]⟩]

/-- Run setup with two independent roots and one dependent:
`a` and `b` have no dependencies, `c` depends on `b`. -/
def abcServices : List (String × List String) :=
  [("a", []), ("b", []), ("c", ["b"])]

/-- Coordinator state right after a failure was reported in the `abc` run. -/
def abcAfterFail : CoordState :=
  { ctx := RunningContext.init abcServices, failed := true }

/-- Coordinator state after `start_next "b"` follows the failure. -/
def abcAfterLaunch : CoordState :=
  { ctx := ((RunningContext.init abcServices).service_started "b").1
    failed := true }

/-- The chain `db ← api ← web`. -/
def chainServices : List (String × List String) :=
  [("db", []), ("api", ["db"]), ("web", ["api"])]

/-- The chain run's context at construction time. -/
def chainCtx : RunningContext := RunningContext.init chainServices

/-- The two-service run `db ← api`. -/
def dbApiServices : List (String × List String) :=
  [("db", []), ("api", ["db"])]

/-- Initial coordinator state of the `db ← api` run. -/
def dbApiStart : CoordState :=
  { ctx := RunningContext.init dbApiServices, failed := false }

/-- The `db ← api` run after `start_next "db"` launched `api`. -/
def dbApiMid : CoordState :=
  { ctx := (dbApiStart.ctx.service_started "db").1, failed := false }

/-- The `db ← api` run after `start_next "api"` completed the run. -/
def dbApiEnd : CoordState :=
  { ctx := (dbApiMid.ctx.service_started "api").1, failed := false }

/-! Theorems. -/

/-- C1: the claim says every cyclic graph is rejected with
`CircularDependency`, explicitly including cycles padded with shared-diamond
sub-graphs.  The code contradicts this: on `paddedCycleServices` the two
per-origin walks of the cycle members exhaust the step budget inside the
diamond (revisiting `g`) and return just before examining the back edge, so
`load_definitions` succeeds even though the graph has the cycle `a → b → a`.
The unpadded two-cycle is detected, showing the embedding does raise where the
Python walk raises. -/
theorem check_circular_misses_padded_cycle :
    hasCycle paddedCycleReg = true ∧
    load_definitions paddedCycleServices [] = .ok paddedCycleReg ∧
    load_definitions twoCycleServices [] = .error .circularDependency := by
  exact ⟨by decide, rfl, rfl⟩

/-- C2: the claim says the driver receives from `start_all` the set of
started services and logs it.  The body of `start_all` has no `return`
statement, so the driver receives `None` whatever happened, and
`",".join(None)` in `start_services` raises `TypeError` — even for a fully
successful run (failed flag false). -/
theorem start_services_join_raises :
    start_all_return false = none ∧
    (∀ b : Bool, start_services_log b = .error .typeError) :=
  ⟨rfl, fun _ => rfl⟩

/-- C5 counterexample: two definitions named `a`, both excluded.  The claim
says a name shared only by excluded definitions does not produce
`RepeatedServiceName`, but `name_counter` counts every scanned definition,
excluded or not, so load fails exactly with that error. -/
theorem repeated_excluded_names_raise :
    load_definitions [⟨"a", "img", []⟩, ⟨"a", "img", []⟩] ["a"]
      = .error (.repeatedServiceName ["a"]) := rfl

/-- C3 counterexample: in the `abc` run, a failure is reported (say for `a`),
setting the failed flag; the later `start_next "b"` step still launches the
newly-startable agent `c`.  So an agent is launched after `service_failed`,
contradicting the claim that no further agents are launched. -/
theorem agent_launched_after_failure :
    StepOut { ctx := RunningContext.init abcServices, failed := false }
        [] abcAfterFail ∧
    abcAfterFail.failed = true ∧
    StepOut abcAfterFail ["c"] abcAfterLaunch ∧
    (["c"] : List String) ≠ [] := by
  refine ⟨?_, rfl, ?_, by decide⟩
  · exact StepOut.service_failed _ "a"
  · exact StepOut.start_next abcAfterFail "b"

/-- Budget invariant for the dependency loop: if the visitor never exhausts
the fuel and strictly increases the counter while staying within the budget,
the loop does the same (weakly for the empty list). -/
theorem goUpList_bound (tot : Nat) (start : String)
    (visit : Nat → String → Except CircErr Nat) (fuel : Nat)
    (hvisit : ∀ c node, c < tot → tot - c ≤ fuel →
      visit c node ≠ .error .outOfFuel ∧
      ∀ c', visit c node = .ok c' → c < c' ∧ c' ≤ tot) :
    ∀ (l : List String) (count : Nat), count ≤ tot → tot - count ≤ fuel →
      goUpList tot start visit count l ≠ .error .outOfFuel ∧
      ∀ c', goUpList tot start visit count l = .ok c' →
        count ≤ c' ∧ c' ≤ tot := by
  intro l
  induction l with
  | nil =>
    intro count h1 _
    refine ⟨by simp [goUpList], ?_⟩
    intro c' hc'
    simp only [goUpList, Except.ok.injEq] at hc'
    omega
  | cons d rest ih =>
    intro count h1 h2
    by_cases hd : d = start
    · constructor
      · simp [goUpList, hd]
      · intro c' hc'
        simp [goUpList, hd] at hc'
    · by_cases hct : count = tot
      · constructor
        · simp [goUpList, hd, hct]
        · intro c' hc'
          simp only [goUpList, if_neg hd, if_pos hct, Except.ok.injEq] at hc'
          omega
      · have hlt : count < tot := by omega
        obtain ⟨hnf, hok⟩ := hvisit count d hlt h2
        cases hv : visit count d with
        | error e =>
          constructor
          · simp only [goUpList, if_neg hd, if_neg hct, hv]
            intro heq
            exact hnf (hv.trans (by injection heq with h; rw [h]))
          · intro c' hc'
            simp only [goUpList, if_neg hd, if_neg hct, hv] at hc'
            exact Except.noConfusion hc'
        | ok c1 =>
          obtain ⟨hgt, hle⟩ := hok c1 hv
          have := ih c1 hle (by omega)
          constructor
          · simpa only [goUpList, if_neg hd, if_neg hct, hv] using this.1
          · intro c' hc'
            simp only [goUpList, if_neg hd, if_neg hct, hv] at hc'
            have h3 := this.2 c' hc'
            omega

/-- Budget invariant for `go_up_dependencies` itself: called with counter
`count < tot` and fuel at least `tot - count`, the walk never exhausts the
fuel, and when it returns normally the counter has strictly increased but
never passed `tot` — the shared counter makes at most `tot` calls happen. -/
theorem goUpNode_bound (reg : Reg) (tot : Nat) (start : String) :
    ∀ (fuel count : Nat) (node : String), count < tot → tot - count ≤ fuel →
      goUpNode reg tot start fuel count node ≠ .error .outOfFuel ∧
      ∀ c', goUpNode reg tot start fuel count node = .ok c' →
        count < c' ∧ c' ≤ tot := by
  intro fuel
  induction fuel with
  | zero => intro count node h1 h2; omega
  | succ fuel ih =>
    intro count node h1 h2
    have hlist := goUpList_bound tot start (goUpNode reg tot start fuel) fuel
      (fun c nd hc hf => ih c nd hc hf)
      (depsOf reg node) (count + 1) (by omega) (by omega)
    constructor
    · simpa only [goUpNode] using hlist.1
    · intro c' hc'
      simp only [goUpNode] at hc'
      have := hlist.2 c' hc'
      omega

/-- The outer origins loop never exhausts the fuel budget `|registry| + 1`. -/
theorem goOrigins_no_fuel (reg : Reg) :
    ∀ l : List (String × List String), (∀ p ∈ l, p ∈ reg) →
      goOrigins reg l ≠ .error .outOfFuel := by
  intro l
  induction l with
  | nil => intro _; simp [goOrigins]
  | cons p rest ih =>
    intro hmem
    obtain ⟨n, ds⟩ := p
    have hreg : (n, ds) ∈ reg := hmem _ (List.mem_cons_self _ _)
    have hpos : 0 < reg.length := List.length_pos.mpr (by
      intro h
      rw [h] at hreg
      exact (List.not_mem_nil _ hreg))
    have hwalk := goUpNode_bound reg reg.length n (reg.length + 1) 0 n hpos
      (by omega)
    cases hv : goUpNode reg reg.length n (reg.length + 1) 0 n with
    | error e =>
      simp only [goOrigins, hv]
      intro heq
      exact hwalk.1 (hv.trans (by injection heq with h; rw [h]))
    | ok c =>
      simp only [goOrigins, hv]
      exact ih (fun q hq => hmem q (List.mem_cons_of_mem _ hq))

/-- C4: for every registry the cycle check stays within its budget: the fuel
`|registry| + 1` of the embedding is never exhausted (so the depth-first walk,
revisiting allowed, terminates), and each origin's walk returns a call counter
of at most the total number of definitions — the shared counter bounds the
recursion at `N` steps per origin. -/
theorem cycle_walk_bounded (reg : Reg) :
    check_circular_dependencies reg ≠ .error .outOfFuel ∧
    ∀ n ds, (n, ds) ∈ reg →
      goUpNode reg reg.length n (reg.length + 1) 0 n ≠ .error .outOfFuel ∧
      ∀ c', goUpNode reg reg.length n (reg.length + 1) 0 n = .ok c' →
        c' ≤ reg.length := by
  constructor
  · exact goOrigins_no_fuel reg _ (fun p hp => List.mem_of_mem_filter hp)
  · intro n ds hmem
    have hpos : 0 < reg.length := List.length_pos.mpr (by
      intro h
      rw [h] at hmem
      exact (List.not_mem_nil _ hmem))
    have h := goUpNode_bound reg reg.length n (reg.length + 1) 0 n hpos (by omega)
    exact ⟨h.1, fun c' hc' => (h.2 c' hc').2⟩

/-- C4 witness: the origin `a` of the padded-cycle registry. -/
theorem cycle_walk_bounded_witness :
    goUpNode paddedCycleReg paddedCycleReg.length "a"
      (paddedCycleReg.length + 1) 0 "a" ≠ .error .outOfFuel :=
  ((cycle_walk_bounded paddedCycleReg).2 "a" ["d", "b"] (by decide)).1

/-- Whenever some not-yet-scanned, non-excluded definition has an excluded
dependency, the scan loop raises `ExcludedDependency`, whatever registry and
counter have accumulated so far. -/
theorem scan_excluded_dep (exclude : List String) :
    ∀ (services : List ServiceDef) (reg : Reg) (counter : List (String × Nat)),
      (∃ s ∈ services, s.name ∉ exclude ∧ ∃ d ∈ s.dependencies, d ∈ exclude) →
      ∃ d n, scanServices exclude services reg counter
        = .error (.excludedDependency d n) := by
  intro services
  induction services with
  | nil =>
    intro reg counter h
    obtain ⟨s, hs, _⟩ := h
    exact absurd hs (List.not_mem_nil s)
  | cons s rest ih =>
    intro reg counter h
    by_cases hex : s.name ∈ exclude
    · simp only [scanServices, if_pos hex]
      apply ih
      obtain ⟨t, ht, h2⟩ := h
      rcases List.mem_cons.mp ht with rfl | ht'
      · exact absurd hex h2.1
      · exact ⟨t, ht', h2⟩
    · simp only [scanServices, if_neg hex]
      cases hf : s.dependencies.filter (fun d => decide (d ∈ exclude)) with
      | nil =>
        apply ih
        obtain ⟨t, ht, hne, d, hd, hdex⟩ := h
        rcases List.mem_cons.mp ht with rfl | ht'
        · exfalso
          have hmem : d ∈ t.dependencies.filter (fun d => decide (d ∈ exclude)) :=
            List.mem_filter.mpr ⟨hd, by simpa using hdex⟩
          rw [hf] at hmem
          exact List.not_mem_nil d hmem
        · exact ⟨t, ht', hne, d, hd, hdex⟩
      | cons d ds =>
        exact ⟨d, s.name, rfl⟩

/-- C8: for every set of definitions and every exclusion list, as soon as some
non-excluded definition depends on an excluded name, `load_definitions` fails
with `ExcludedDependency` — the scan visits every definition, so the
declaration order does not matter. -/
theorem load_fails_excluded_dependency (services : List ServiceDef)
    (exclude : List String)
    (h : ∃ s ∈ services, s.name ∉ exclude ∧ ∃ d ∈ s.dependencies, d ∈ exclude) :
    ∃ d n, load_definitions services exclude
      = .error (.excludedDependency d n) := by
  obtain ⟨d, n, hscan⟩ := scan_excluded_dep exclude services [] [] h
  have hne : ¬services.length = 0 := by
    obtain ⟨s, hs, _⟩ := h
    cases services with
    | nil => exact absurd hs (List.not_mem_nil s)
    | cons _ _ => simp
  refine ⟨d, n, ?_⟩
  simp only [load_definitions, if_neg hne, hscan]

/-- C8 witness: excluding `db` while `api` depends on it. -/
theorem load_fails_excluded_dependency_witness :
    ∃ d n, load_definitions [⟨"db", "img", []⟩, ⟨"api", "img", ["db"]⟩] ["db"]
      = .error (.excludedDependency d n) :=
  load_fails_excluded_dependency _ _ (by decide)

/-- Length of a filtered cons. -/
theorem length_filter_cons {α : Type} (p : α → Bool) (a : α) (l : List α) :
    (List.filter p (a :: l)).length
      = (if p a then 1 else 0) + (List.filter p l).length := by
  by_cases h : p a <;> simp [List.filter_cons, h] <;> omega

/-- Bumping a name increments exactly that name's count. -/
theorem countOf_bump (c : List (String × Nat)) (k n : String) :
    countOf (bump c k) n = countOf c n + (if n = k then 1 else 0) := by
  induction c with
  | nil =>
    by_cases h : n = k
    · simp [bump, countOf, h]
    · simp [bump, countOf, h]
  | cons p rest ih =>
    obtain ⟨k', m⟩ := p
    by_cases hk : k' = k
    · subst hk
      by_cases h : n = k'
      · simp [bump, countOf, h]
      · simp [bump, countOf, h]
    · by_cases h : n = k'
      · have hnk : ¬n = k := fun hh => hk (h ▸ hh)
        simp [bump, countOf, hk, h, hnk]
      · simp [bump, countOf, hk, h, ih]

/-- The scan loop succeeds when no non-excluded definition has an excluded
dependency, and the resulting counter counts every scanned definition's name,
excluded or not. -/
theorem scan_ok_counter (exclude : List String) :
    ∀ (services : List ServiceDef) (reg : Reg) (counter : List (String × Nat)),
      (∀ s ∈ services, s.name ∉ exclude →
        s.dependencies.filter (fun d => decide (d ∈ exclude)) = []) →
      ∃ reg' counter',
        scanServices exclude services reg counter = .ok (reg', counter') ∧
        ∀ n, countOf counter' n
          = countOf counter n
            + (services.filter (fun s => decide (s.name = n))).length := by
  intro services
  induction services with
  | nil =>
    intro reg counter _
    exact ⟨reg, counter, rfl, fun n => by simp [List.filter]⟩
  | cons s rest ih =>
    intro reg counter hno
    by_cases hex : s.name ∈ exclude
    · obtain ⟨reg', counter', hscan, hcnt⟩ :=
        ih reg (bump counter s.name)
          (fun t ht => hno t (List.mem_cons_of_mem _ ht))
      refine ⟨reg', counter', ?_, ?_⟩
      · simpa only [scanServices, if_pos hex] using hscan
      · intro n
        rw [hcnt n, countOf_bump, length_filter_cons]
        by_cases hsn : s.name = n
        · simp [hsn] <;> omega
        · have hns : ¬n = s.name := fun hh => hsn hh.symm
          simp [hsn, hns] <;> omega
    · have hf : s.dependencies.filter (fun d => decide (d ∈ exclude)) = [] :=
        hno s (List.mem_cons_self _ _) hex
      obtain ⟨reg', counter', hscan, hcnt⟩ :=
        ih (updateAssoc reg s.name s.dependencies) (bump counter s.name)
          (fun t ht => hno t (List.mem_cons_of_mem _ ht))
      refine ⟨reg', counter', ?_, ?_⟩
      · simp only [scanServices, if_neg hex]
        rw [hf]
        exact hscan
      · intro n
        rw [hcnt n, countOf_bump, length_filter_cons]
        by_cases hsn : s.name = n
        · simp [hsn] <;> omega
        · have hns : ¬n = s.name := fun hh => hsn hh.symm
          simp [hsn, hns] <;> omega

/-- A name counted at least twice yields an entry above 1. -/
theorem exists_big_entry (c : List (String × Nat)) (n : String)
    (h : 2 ≤ countOf c n) : ∃ k m, (k, m) ∈ c ∧ 1 < m := by
  induction c with
  | nil => simp [countOf] at h
  | cons p rest ih =>
    obtain ⟨k, m⟩ := p
    by_cases hn : n = k
    · exact ⟨k, m, List.mem_cons_self _ _, by
        simp only [countOf, if_pos hn] at h
        omega⟩
    · obtain ⟨k', m', hm, hgt⟩ := ih (by simpa [countOf, hn] using h)
      exact ⟨k', m', List.mem_cons_of_mem _ hm, hgt⟩

/-- A name counted at least twice makes `multiples` nonempty. -/
theorem multiples_ne_nil (c : List (String × Nat)) (n : String)
    (h : 2 ≤ countOf c n) : multiples c ≠ [] := by
  obtain ⟨k, m, hm, hgt⟩ := exists_big_entry c n h
  intro heq
  have hk : k ∈ multiples c :=
    List.mem_map.mpr ⟨(k, m), List.mem_filter.mpr ⟨hm, by simpa using hgt⟩, rfl⟩
  rw [heq] at hk
  exact List.not_mem_nil k hk

/-- C5 amended: whenever two scanned definitions share a name — excluded or
not — and no excluded-dependency error preempts the check, `load_definitions`
fails with `RepeatedServiceName`: the name counter counts excluded
definitions too, so dropping a definition from the registry does not exempt
its name from the duplicate check. -/
theorem load_fails_repeated_name (services : List ServiceDef)
    (exclude : List String)
    (hnoexcl : ∀ s ∈ services, s.name ∉ exclude →
      s.dependencies.filter (fun d => decide (d ∈ exclude)) = [])
    (hdup : ∃ n, 2 ≤ (services.filter (fun s => decide (s.name = n))).length) :
    ∃ ms, load_definitions services exclude
      = .error (.repeatedServiceName ms) ∧ ms ≠ [] := by
  obtain ⟨n, hn⟩ := hdup
  obtain ⟨reg', counter', hscan, hcount⟩ :=
    scan_ok_counter exclude services [] [] hnoexcl
  have h2 : 2 ≤ countOf counter' n := by
    rw [hcount n]
    simpa [countOf] using hn
  have hlen : ¬services.length = 0 := by
    cases services with
    | nil => simp [List.filter] at hn
    | cons _ _ => simp
  have hmul := multiples_ne_nil counter' n h2
  refine ⟨multiples counter', ?_, hmul⟩
  simp only [load_definitions, if_neg hlen, hscan]
  cases hm : multiples counter' with
  | nil => exact absurd hm hmul
  | cons a as => rfl

/-- C5 amended witness: two definitions named `a`, both excluded. -/
theorem load_fails_repeated_name_witness :
    ∃ ms, load_definitions [⟨"a", "img", []⟩, ⟨"a", "img", []⟩] ["a"]
      = .error (.repeatedServiceName ms) ∧ ms ≠ [] :=
  load_fails_repeated_name _ _ (by decide) ⟨"a", by decide⟩

/-- Writing a fresh key into an association map appends it. -/
theorem updateAssoc_fresh {α : Type} :
    ∀ (m : List (String × α)) (k : String) (v : α), k ∉ keys m →
      updateAssoc m k v = m ++ [(k, v)] := by
  intro m
  induction m with
  | nil => intro k v _; rfl
  | cons p rest ih =>
    intro k v hk
    obtain ⟨k', v'⟩ := p
    simp only [keys, List.map_cons, List.mem_cons] at hk
    push_neg at hk
    obtain ⟨hk1, hk2⟩ := hk
    have hne : ¬k' = k := fun h => hk1 h.symm
    simp only [updateAssoc, if_neg hne]
    rw [ih k v hk2]
    rfl

/-- Membership in the keys of a bumped counter. -/
theorem bump_keys (c : List (String × Nat)) (k : String) :
    ∀ n, n ∈ keys (bump c k) ↔ n ∈ keys c ∨ n = k := by
  induction c with
  | nil => intro n; simp [bump, keys]
  | cons p rest ih =>
    obtain ⟨k', m⟩ := p
    intro n
    by_cases hk : k' = k
    · rw [show bump ((k', m) :: rest) k = (k', m + 1) :: rest from by
        simp [bump, hk]]
      subst hk
      simp only [keys, List.map_cons, List.mem_cons]
      tauto
    · rw [show bump ((k', m) :: rest) k = (k', m) :: bump rest k from by
        simp [bump, hk]]
      simp only [keys, List.map_cons, List.mem_cons]
      rw [show (n ∈ (bump rest k).map Prod.fst) = (n ∈ keys (bump rest k)) from rfl,
        ih n]
      tauto

/-- Bumping preserves distinctness of the counter's keys. -/
theorem bump_keys_nodup (c : List (String × Nat)) (k : String)
    (h : (keys c).Nodup) : (keys (bump c k)).Nodup := by
  induction c with
  | nil => simp [bump, keys]
  | cons p rest ih =>
    obtain ⟨k', m⟩ := p
    simp only [keys, List.map_cons, List.nodup_cons] at h
    by_cases hk : k' = k
    · rw [show bump ((k', m) :: rest) k = (k', m + 1) :: rest from by
        simp [bump, hk]]
      simp only [keys, List.map_cons, List.nodup_cons]
      exact h
    · rw [show bump ((k', m) :: rest) k = (k', m) :: bump rest k from by
        simp [bump, hk]]
      simp only [keys, List.map_cons, List.nodup_cons]
      refine ⟨?_, ih h.2⟩
      intro hmem
      rcases (bump_keys rest k k').mp hmem with h1 | h1
      · exact h.1 h1
      · exact hk h1

/-- On a counter with distinct keys, membership determines the count. -/
theorem countOf_of_mem :
    ∀ (c : List (String × Nat)), (keys c).Nodup →
      ∀ k m, (k, m) ∈ c → countOf c k = m := by
  intro c
  induction c with
  | nil => intro _ k m hm; exact absurd hm (List.not_mem_nil _)
  | cons p rest ih =>
    intro hkeys k m hm
    obtain ⟨k', m'⟩ := p
    simp only [keys, List.map_cons, List.nodup_cons] at hkeys
    rcases List.mem_cons.mp hm with heq | htail
    · cases heq
      simp [countOf]
    · by_cases hkk : k = k'
      · subst hkk
        exact absurd (List.mem_map.mpr ⟨(k, m), htail, rfl⟩) hkeys.1
      · simp only [countOf, if_neg hkk]
        exact ih hkeys.2 k m htail

/-- When every name is counted at most once, `multiples` is empty. -/
theorem multiples_eq_nil (c : List (String × Nat)) (hkeys : (keys c).Nodup)
    (hle : ∀ n, countOf c n ≤ 1) : multiples c = [] := by
  have hfil : c.filter (fun p => decide (1 < p.2)) = [] := by
    rw [List.filter_eq_nil_iff]
    intro p hp
    obtain ⟨k, m⟩ := p
    have hc := countOf_of_mem c hkeys k m hp
    have := hle k
    simp only [decide_eq_true_eq, not_lt]
    omega
  simp [multiples, hfil]

/-- The scan loop preserves distinctness of the counter's keys. -/
theorem scan_counter_nodup (exclude : List String) :
    ∀ (services : List ServiceDef) (reg : Reg) (counter : List (String × Nat))
      (reg' : Reg) (counter' : List (String × Nat)),
      scanServices exclude services reg counter = .ok (reg', counter') →
      (keys counter).Nodup → (keys counter').Nodup := by
  intro services
  induction services with
  | nil =>
    intro reg counter reg' counter' h hn
    simp only [scanServices, Except.ok.injEq, Prod.mk.injEq] at h
    rw [← h.2]
    exact hn
  | cons s rest ih =>
    intro reg counter reg' counter' h hn
    by_cases hex : s.name ∈ exclude
    · simp only [scanServices, if_pos hex] at h
      exact ih _ _ _ _ h (bump_keys_nodup _ _ hn)
    · simp only [scanServices, if_neg hex] at h
      cases hf : s.dependencies.filter (fun d => decide (d ∈ exclude)) with
      | nil =>
        rw [hf] at h
        exact ih _ _ _ _ h (bump_keys_nodup _ _ hn)
      | cons d ds =>
        rw [hf] at h
        exact Except.noConfusion h

/-- With pairwise distinct names, a name matches at most one definition. -/
theorem count_le_one_of_nodup :
    ∀ (services : List ServiceDef),
      ((services.map ServiceDef.name).Nodup) → ∀ n : String,
      (services.filter (fun s => decide (s.name = n))).length ≤ 1 := by
  intro services
  induction services with
  | nil => intro _ n; simp
  | cons s rest ih =>
    intro h n
    simp only [List.map_cons, List.nodup_cons] at h
    rw [length_filter_cons]
    by_cases hsn : s.name = n
    · have hrest : rest.filter (fun s => decide (s.name = n)) = [] := by
        rw [List.filter_eq_nil_iff]
        intro t ht
        simp only [decide_eq_true_eq]
        intro htn
        exact h.1 (List.mem_map.mpr ⟨t, ht, htn.trans hsn.symm⟩)
      simp [hsn, hrest]
    · simpa [hsn] using ih h.2 n

/-- Successful scans build the registry of exactly the non-excluded
definitions, in declaration order, appended to the accumulator. -/
theorem scan_ok_reg (exclude : List String) :
    ∀ (services : List ServiceDef) (reg : Reg) (counter : List (String × Nat)),
      (∀ s ∈ services, s.name ∉ exclude →
        s.dependencies.filter (fun d => decide (d ∈ exclude)) = []) →
      (∀ s ∈ services, s.name ∉ keys reg) →
      ((services.map ServiceDef.name).Nodup) →
      ∃ counter',
        scanServices exclude services reg counter
          = .ok (reg
              ++ (services.filter (fun s => !decide (s.name ∈ exclude))).map
                  (fun s => (s.name, s.dependencies)),
              counter') := by
  intro services
  induction services with
  | nil =>
    intro reg counter _ _ _
    exact ⟨counter, by simp [scanServices]⟩
  | cons s rest ih =>
    intro reg counter hno hfresh hnodup
    simp only [List.map_cons, List.nodup_cons] at hnodup
    by_cases hex : s.name ∈ exclude
    · obtain ⟨counter', hc⟩ := ih reg (bump counter s.name)
        (fun t ht => hno t (List.mem_cons_of_mem _ ht))
        (fun t ht => hfresh t (List.mem_cons_of_mem _ ht)) hnodup.2
      refine ⟨counter', ?_⟩
      simp only [scanServices, if_pos hex]
      rw [hc]
      simp [List.filter_cons, hex]
    · have hf := hno s (List.mem_cons_self _ _) hex
      have hfr : s.name ∉ keys reg := hfresh s (List.mem_cons_self _ _)
      obtain ⟨counter', hc⟩ := ih (updateAssoc reg s.name s.dependencies)
        (bump counter s.name)
        (fun t ht => hno t (List.mem_cons_of_mem _ ht))
        (fun t ht => by
          rw [updateAssoc_fresh reg s.name s.dependencies hfr]
          simp only [keys, List.map_append, List.map_cons, List.map_nil,
            List.mem_append, List.mem_cons, List.not_mem_nil]
          rintro (h1 | h2 | h3)
          · exact hfresh t (List.mem_cons_of_mem _ ht) h1
          · exact hnodup.1 (List.mem_map.mpr ⟨t, ht, h2⟩)
          · exact h3)
        hnodup.2
      refine ⟨counter', ?_⟩
      simp only [scanServices, if_neg hex]
      rw [hf]
      rw [hc, updateAssoc_fresh reg s.name s.dependencies hfr]
      simp [List.filter_cons, hex]

/-- When some surviving entry has a dependency outside the registry's keys,
resolution raises a `KeyError`. -/
theorem resolveDeps_missing (reg : Reg) :
    ∀ entries : List (String × List String),
      (∃ p ∈ entries, ∃ d ∈ p.2, d ∉ keys reg) →
      ∃ d, resolveDeps reg entries = .error (.keyError d) := by
  intro entries
  induction entries with
  | nil =>
    intro h
    obtain ⟨p, hp, _⟩ := h
    exact absurd hp (List.not_mem_nil p)
  | cons q rest ih =>
    intro h
    obtain ⟨n, deps⟩ := q
    cases hfind : deps.find? (fun d => !decide (d ∈ keys reg)) with
    | some d =>
      exact ⟨d, by simp only [resolveDeps, hfind]⟩
    | none =>
      have hall := List.find?_eq_none.mp hfind
      obtain ⟨p, hp, d, hd, hdk⟩ := h
      rcases List.mem_cons.mp hp with heq | htail
      · exfalso
        subst heq
        have hmemk := hall d hd
        simp at hmemk
        exact hdk hmemk
      · obtain ⟨d', hres⟩ := ih ⟨p, htail, d, hd, hdk⟩
        refine ⟨d', ?_⟩
        simp only [resolveDeps, hfind]
        exact hres

/-- C10: when the scan and duplicate checks pass but some non-excluded
definition names a dependency that is neither defined nor excluded, the
registry is first fully populated with every non-excluded definition, and
dependency resolution then raises a bare `KeyError` — not one of the
documented `ServiceLoadError` failures. -/
theorem load_raises_key_error (services : List ServiceDef)
    (exclude : List String)
    (hnoexcl : ∀ s ∈ services, s.name ∉ exclude →
      s.dependencies.filter (fun d => decide (d ∈ exclude)) = [])
    (hnodup : (services.map ServiceDef.name).Nodup)
    (hmissing : ∃ s ∈ services, s.name ∉ exclude ∧
      ∃ d ∈ s.dependencies, d ∉ services.map ServiceDef.name) :
    (∃ counter',
      scanServices exclude services [] []
        = .ok ((services.filter (fun s => !decide (s.name ∈ exclude))).map
            (fun s => (s.name, s.dependencies)), counter')) ∧
    ∃ d, load_definitions services exclude = .error (.keyError d) := by
  obtain ⟨counter', hscan⟩ := scan_ok_reg exclude services [] [] hnoexcl
    (fun s _ => List.not_mem_nil s.name) hnodup
  rw [List.nil_append] at hscan
  set regN := (services.filter (fun s => !decide (s.name ∈ exclude))).map
    (fun s => (s.name, s.dependencies)) with hregN
  refine ⟨⟨counter', hscan⟩, ?_⟩
  obtain ⟨regA, counterA, hscanA, hcount⟩ :=
    scan_ok_counter exclude services [] [] hnoexcl
  have heq : regA = regN ∧ counterA = counter' := by
    rw [hscan] at hscanA
    injection hscanA with h
    exact ⟨(Prod.mk.injEq _ _ _ _ ▸ h).1.symm, (Prod.mk.injEq _ _ _ _ ▸ h).2.symm⟩
  have hknodup : (keys counter').Nodup :=
    scan_counter_nodup exclude services [] [] regN counter' hscan (by simp [keys])
  have hle : ∀ n, countOf counter' n ≤ 1 := by
    intro n
    have h1 := hcount n
    rw [heq.2] at h1
    rw [h1]
    simpa [countOf] using count_le_one_of_nodup services hnodup n
  have hmul : multiples counter' = [] := multiples_eq_nil counter' hknodup hle
  have hkeysub : ∀ x, x ∈ keys regN → x ∈ services.map ServiceDef.name := by
    intro x hx
    rw [hregN] at hx
    simp only [keys, List.map_map, List.mem_map] at hx
    obtain ⟨t, ht, hxt⟩ := hx
    exact List.mem_map.mpr ⟨t, List.mem_of_mem_filter ht, hxt⟩
  obtain ⟨s, hs, hsex, d, hd, hdnames⟩ := hmissing
  have hentry : (s.name, s.dependencies) ∈ regN := by
    rw [hregN]
    refine List.mem_map.mpr ⟨s, List.mem_filter.mpr ⟨hs, by simpa using hsex⟩, rfl⟩
  obtain ⟨d', hres⟩ := resolveDeps_missing regN regN
    ⟨(s.name, s.dependencies), hentry, d, hd, fun hk => hdnames (hkeysub d hk)⟩
  have hlen : ¬services.length = 0 := by
    cases services with
    | nil => exact absurd hs (List.not_mem_nil s)
    | cons _ _ => simp
  refine ⟨d', ?_⟩
  simp only [load_definitions, if_neg hlen, hscan, hmul, hres]

/-- C10 witness: a single service depending on an undefined name. -/
theorem load_raises_key_error_witness :
    (∃ counter',
      scanServices [] [ServiceDef.mk "api" "img" ["ghost"]] [] []
        = .ok (([ServiceDef.mk "api" "img" ["ghost"]].filter
            (fun s => !decide (s.name ∈ ([] : List String)))).map
            (fun s => (s.name, s.dependencies)), counter')) ∧
    ∃ d, load_definitions [ServiceDef.mk "api" "img" ["ghost"]] []
      = .error (.keyError d) :=
  load_raises_key_error _ _ (by decide) (by decide) (by decide)

/-- Agent names survive notification; the waiting map's agent names are
unchanged by notifying every waiting agent. -/
theorem notified_names (ctx : RunningContext) (started : String) :
    (ctx.waiting_agents.map
        (fun p => (p.1, p.2.process_service_started started))).map
        (fun p => p.2.name)
      = ctx.waiting_agents.map (fun p => p.2.name) := by
  rw [List.map_map]
  rfl

/-- A step never grows the failed flag back to false. -/
theorem stepOut_failed_mono {s : CoordState} {out : List String}
    {t : CoordState} (h : StepOut s out t) :
    s.failed = true → t.failed = true := by
  cases h with
  | start_next name => exact fun hf => hf
  | service_failed name => exact fun _ => rfl

/-- The failed flag is monotone along every run. -/
theorem steps_failed_mono (s t : CoordState)
    (h : Relation.ReflTransGen StepAny s t) :
    s.failed = true → t.failed = true := by
  induction h with
  | refl => exact id
  | tail hab hbc ih =>
    intro hf
    obtain ⟨out, hstep⟩ := hbc
    exact stepOut_failed_mono hstep (ih hf)

/-- A step can only shrink the set of waiting agent names. -/
theorem stepOut_wnames_subset {s : CoordState} {out : List String}
    {t : CoordState} (h : StepOut s out t) :
    ∀ n ∈ wnames t, n ∈ wnames s := by
  cases h with
  | start_next name =>
    intro n hn
    simp only [wnames, RunningContext.service_started, List.mem_map] at hn ⊢
    obtain ⟨p, hp, hpn⟩ := hn
    have hp' := List.mem_of_mem_filter hp
    simp only [List.mem_map] at hp'
    obtain ⟨q, hq, hqp⟩ := hp'
    refine ⟨q, hq, ?_⟩
    rw [← hpn, ← hqp]
    rfl
  | service_failed name => exact fun n hn => hn

/-- Shrinking holds along whole runs. -/
theorem steps_wnames_subset (s t : CoordState)
    (h : Relation.ReflTransGen StepAny s t) :
    ∀ n ∈ wnames t, n ∈ wnames s := by
  induction h with
  | refl => exact fun n hn => hn
  | tail hab hbc ih =>
    intro n hn
    obtain ⟨out, hstep⟩ := hbc
    exact ih n (stepOut_wnames_subset hstep n hn)

/-- Every launched agent name was a waiting agent name. -/
theorem stepOut_out_subset {s : CoordState} {out : List String}
    {t : CoordState} (h : StepOut s out t) :
    ∀ n ∈ out, n ∈ wnames s := by
  cases h with
  | start_next name =>
    intro n hn
    simp only [RunningContext.service_started, List.map_map, List.mem_map] at hn
    obtain ⟨p, hp, hpn⟩ := hn
    have hp' := List.mem_of_mem_filter hp
    simp only [List.mem_map] at hp'
    obtain ⟨q, hq, hqp⟩ := hp'
    simp only [wnames, List.mem_map]
    refine ⟨q, hq, ?_⟩
    rw [← hpn, ← hqp]
    rfl
  | service_failed name => exact fun n hn => absurd hn (List.not_mem_nil n)

/-- With distinct waiting names, a launched agent leaves the waiting map. -/
theorem stepOut_removed {s : CoordState} {out : List String}
    {t : CoordState} (h : StepOut s out t) (hnd : (wnames s).Nodup) :
    ∀ n ∈ out, n ∉ wnames t := by
  cases h with
  | service_failed name => exact fun n hn => absurd hn (List.not_mem_nil n)
  | start_next name =>
    intro n hn hmem
    simp only [RunningContext.service_started, List.map_map, List.mem_map] at hn
    obtain ⟨p, hp, hpn⟩ := hn
    have hpcan : p.2.can_start = true := by
      have := List.mem_filter.mp hp
      simpa using this.2
    have hpnot := List.mem_of_mem_filter hp
    simp only [wnames, RunningContext.service_started, List.mem_map] at hmem
    obtain ⟨q, hq, hqn⟩ := hmem
    have hqcan : q.2.can_start = false := by
      have := List.mem_filter.mp hq
      simpa using this.2
    have hqnot := List.mem_of_mem_filter hq
    have hndn : ((s.ctx.waiting_agents.map
        (fun r => (r.1, r.2.process_service_started name))).map
        (fun r => r.2.name)).Nodup := by
      rw [notified_names]
      exact hnd
    have hpq : p = q := List.inj_on_of_nodup_map hndn hpnot hqnot
      (by exact hpn.trans hqn.symm)
    rw [hpq] at hpcan
    rw [hpcan] at hqcan
    exact Bool.noConfusion hqcan

/-- C3 (amended): `service_failed` sets the failed flag and the flag then
stays true for the remainder of the run; the flag-setting step launches no
agent and leaves every agent in place.  It does not, however, stop later
`start_next` steps from launching newly-startable agents (the separate
counterexample theorem exhibits a launch after a failure). -/
theorem failed_flag_persists (s t : CoordState)
    (h : Relation.ReflTransGen StepAny s t) (hf : s.failed = true) :
    t.failed = true ∧
    (∀ u v : CoordState, ∀ out : List String, StepOut u out v →
      u.failed = false → v.failed = true → out = [] ∧ v.ctx = u.ctx) := by
  refine ⟨steps_failed_mono s t h hf, ?_⟩
  intro u v out hstep hu hv
  cases hstep with
  | start_next name =>
    rw [hu] at hv
    exact Bool.noConfusion hv
  | service_failed name => exact ⟨rfl, rfl⟩

/-- C3 amended witness. -/
theorem failed_flag_persists_witness : abcAfterFail.failed = true :=
  (failed_flag_persists abcAfterFail abcAfterFail
    Relation.ReflTransGen.refl rfl).1

/-- C7: no agent is launched twice.  An agent launched by a step is removed
from the waiting map, steps never re-add waiting names, and every launched
name comes from the waiting map — so a name launched at one step cannot be
launched again at any later step of the same run. -/
theorem agent_launched_at_most_once
    (s0 : CoordState) (out0 : List String) (s1 s2 : CoordState)
    (out2 : List String) (s3 : CoordState)
    (hnd : (wnames s0).Nodup)
    (h01 : StepOut s0 out0 s1)
    (h12 : Relation.ReflTransGen StepAny s1 s2)
    (h23 : StepOut s2 out2 s3) :
    ∀ n ∈ out0, n ∉ out2 := by
  intro n hn hn2
  have h1 : n ∉ wnames s1 := stepOut_removed h01 hnd n hn
  have h2 : n ∈ wnames s2 := stepOut_out_subset h23 n hn2
  exact h1 (steps_wnames_subset s1 s2 h12 n h2)

/-- C7 witness: in the `db ← api` run, `api` is launched when `db` completes
and cannot be launched again by the following step. -/
theorem agent_launched_at_most_once_witness :
    ¬("api" ∈ ([] : List String)) :=
  agent_launched_at_most_once dbApiStart ["api"] dbApiMid dbApiMid []
    dbApiEnd (by decide) (StepOut.start_next dbApiStart "db")
    Relation.ReflTransGen.refl (StepOut.start_next dbApiMid "api")
    "api" (by decide)

/-- C6: `service_started` pops the started name from the active map and keeps
every other entry; every waiting agent is notified; the notified agents whose
dependencies are all satisfied are returned and leave the waiting map, while
every still-unsatisfied agent remains waiting (notified); and everything
returned is a satisfied notified waiting agent. -/
theorem service_started_spec (ctx : RunningContext) (started : String)
    (hactive : started ∈ keys ctx.service_agents)
    (hnd : (ctx.waiting_agents.map (fun p => p.2.name)).Nodup)
    (hcoh : ∀ p ∈ ctx.waiting_agents, p.1 = p.2.name) :
    (started ∉ keys (ctx.service_started started).1.service_agents) ∧
    (∀ p ∈ ctx.service_agents, p.1 ≠ started →
      p ∈ (ctx.service_started started).1.service_agents) ∧
    (∀ n a, (n, a) ∈ ctx.waiting_agents →
      ((a.process_service_started started).can_start = true →
        a.process_service_started started ∈ (ctx.service_started started).2 ∧
        ∀ b ∈ (ctx.service_started started).1.waiting_agents, b.1 ≠ n) ∧
      ((a.process_service_started started).can_start = false →
        (n, a.process_service_started started)
          ∈ (ctx.service_started started).1.waiting_agents)) ∧
    (∀ b ∈ (ctx.service_started started).2, ∃ n a,
      (n, a) ∈ ctx.waiting_agents ∧ b = a.process_service_started started ∧
      b.can_start = true) := by
  refine ⟨?_, ?_, ?_, ?_⟩
  · intro hmem
    simp only [RunningContext.service_started, keys, List.mem_map] at hmem
    obtain ⟨p, hp, hps⟩ := hmem
    have := List.mem_filter.mp hp
    rw [hps] at this
    simp at this
  · intro p hp hne
    simp only [RunningContext.service_started]
    exact List.mem_filter.mpr ⟨hp, by simpa using hne⟩
  · intro n a hna
    have hnotif : (n, a.process_service_started started)
        ∈ ctx.waiting_agents.map
          (fun p => (p.1, p.2.process_service_started started)) :=
      List.mem_map.mpr ⟨(n, a), hna, rfl⟩
    constructor
    · intro hcan
      constructor
      · simp only [RunningContext.service_started, List.mem_map]
        exact ⟨(n, a.process_service_started started),
          List.mem_filter.mpr ⟨hnotif, by simpa using hcan⟩, rfl⟩
      · intro b hb hbn
        simp only [RunningContext.service_started] at hb
        have hbfil := List.mem_filter.mp hb
        have hbcan : b.2.can_start = false := by simpa using hbfil.2
        have hbmem := hbfil.1
        simp only [List.mem_map] at hbmem
        obtain ⟨q, hq, hqb⟩ := hbmem
        have hndn : ((ctx.waiting_agents.map
            (fun r => (r.1, r.2.process_service_started started))).map
            (fun r => r.2.name)).Nodup := by
          rw [notified_names]
          exact hnd
        have hqname : q.2.name = a.name := by
          have h1 : q.1 = q.2.name := hcoh q hq
          have h2 : n = a.name := hcoh (n, a) hna
          have h3 : b.1 = q.1 := by rw [← hqb]
          rw [← h1, ← h3, hbn, h2]
        have hbq : (n, a.process_service_started started) = b := by
          refine List.inj_on_of_nodup_map hndn hnotif ?_ ?_
          · rw [← hqb]
            exact List.mem_map.mpr ⟨q, hq, rfl⟩
          · rw [← hqb]
            show (a.process_service_started started).name
              = (q.2.process_service_started started).name
            show a.name = q.2.name
            exact hqname.symm
        rw [← hbq] at hbcan
        have : (a.process_service_started started).can_start = true := hcan
        rw [this] at hbcan
        exact Bool.noConfusion hbcan
    · intro hcan
      simp only [RunningContext.service_started]
      exact List.mem_filter.mpr ⟨hnotif, by simpa using hcan⟩
  · intro b hb
    simp only [RunningContext.service_started, List.mem_map] at hb
    obtain ⟨p, hp, hpb⟩ := hb
    have hpfil := List.mem_filter.mp hp
    have hpcan : p.2.can_start = true := by simpa using hpfil.2
    have hpmem := hpfil.1
    simp only [List.mem_map] at hpmem
    obtain ⟨q, hq, hqp⟩ := hpmem
    refine ⟨q.1, q.2, hq, ?_, ?_⟩
    · rw [← hpb, ← hqp]
    · rw [← hpb]
      exact hpcan

/-- C6 witness: in the chain run, completing `db` makes `api` startable. -/
theorem service_started_spec_witness :
    Agent.mk "api" [] ∈ (chainCtx.service_started "db").2 :=
  (((service_started_spec chainCtx "db" (by decide) (by decide)
      (by decide)).2.2.1 "api" (Agent.mk "api" ["db"]) (by decide)).1
    (by decide)).1

/-- C9: `done` is true exactly when the waiting map is empty, for every
context; and a `service_failed` step on the `db ← api` run leaves `api`
waiting, so the resulting state has the failed flag set while `done` is still
false. -/
theorem done_iff_no_waiting :
    (∀ ctx : RunningContext, ctx.done = true ↔ ctx.waiting_agents = []) ∧
    (StepOut { ctx := RunningContext.init dbApiServices, failed := false } []
        { ctx := RunningContext.init dbApiServices, failed := true } ∧
      ({ ctx := RunningContext.init dbApiServices,
         failed := true } : CoordState).failed = true ∧
      (RunningContext.init dbApiServices).done = false) := by
  refine ⟨?_, ?_, rfl, by decide⟩
  · intro ctx
    cases h : ctx.waiting_agents with
    | nil => simp [RunningContext.done, h]
    | cons p rest => simp [RunningContext.done, h]
  · exact StepOut.service_failed _ "db"

/-- C9 witness: a context with an empty waiting map is done. -/
theorem done_iff_no_waiting_witness :
    (RunningContext.mk [] []).done = true :=
  (done_iff_no_waiting.1 (RunningContext.mk [] [])).mpr rfl

end Drillmaster
